import Mathlib

/-!
# Verification of the poker-odds-engine core

Shallow embedding of the repository's Go sources:
* `internal/card/card.go`      — card model (ranks, suits, deck construction/removal)
* `internal/evaluator/evaluator.go` — hand evaluator (5-card evaluation, 5-of-7 search,
  comparison)
* `internal/simulator` (in `cmd/server/main.go` part) — Monte Carlo simulation engine
  (worker partitioning, Fisher–Yates shuffling, trial classification, aggregation)

Go machine integers are modelled as `Int`/`Nat` (all quantities involved stay far below
any overflow boundary; counts and lengths are `Nat`, Go `int` values that the source can
make negative or that encode signed comparisons are `Int`).  `float64` probabilities
are modelled as exact rationals `ℚ`; the division operations of the source are exact
divisions here.  Go's `nil` pointer results are modelled with `Option`.  The
`math/rand` generator is modelled as an abstract stream `Nat → Nat` of non-negative
values together with a read position; `rand.Intn(n)` yields the next stream value
taken modulo `n`, which is exactly the contract (a value in `[0, n)`) the source
relies on.
-/

/-- The 13 card ranks, `card.go` lines 15-29 (`Two` … `Ace`). -/
inductive Rank where
  | Two | Three | Four | Five | Six | Seven | Eight | Nine
  | Ten | Jack | Queen | King | Ace
deriving DecidableEq

/-- The 4 suits, `card.go` lines 31-36. -/
inductive Suit where
  | Spades | Hearts | Diamonds | Clubs
deriving DecidableEq

/-- `RankOrder` (`card.go` lines 38-41): ranks from lowest to highest. -/
def RankOrder : List Rank :=
  [.Two, .Three, .Four, .Five, .Six, .Seven, .Eight, .Nine, .Ten, .Jack, .Queen, .King, .Ace]

/-- `AllSuits` (`card.go` line 44). -/
def AllSuits : List Suit := [.Spades, .Hearts, .Diamonds, .Clubs]

/-- A playing card, `card.go` lines 46-50.  The Go struct's exported fields
`Rank`/`Suit` are the lowercase fields `rank`/`suit` here. -/
structure Card where
  rank : Rank
  suit : Suit
deriving DecidableEq

/-- `Card.RankValue` (`card.go` lines 92-100): the index of the card's rank in
`RankOrder`, or `-1` when absent (dead code: every `Rank` occurs in `RankOrder`). -/
def Card.RankValue (c : Card) : Int :=
  match RankOrder.findIdx? (fun r => r == c.rank) with
  | some i => (i : Int)
  | none => -1

/-- `Card.Equal` (`card.go` lines 102-105): rank + suit identity. -/
def Card.Equal (c other : Card) : Bool :=
  c.rank == other.rank && c.suit == other.suit

/-- `NewDeck` (`card.go` lines 107-116): the 52 cards, suits outer, ranks inner. -/
def NewDeck : List Card :=
  AllSuits.flatMap (fun suit => RankOrder.map (fun rank => { rank := rank, suit := suit }))

/-- `RemoveCards` (`card.go` lines 118-134): keep exactly the deck cards that equal
no card of `toRemove`. -/
def RemoveCards (deck toRemove : List Card) : List Card :=
  deck.filter (fun card => !(toRemove.any (fun remove => card.Equal remove)))

/-- Hand rank ordinals (`evaluator.go` lines 218-233): `iota + 1`, so
`HighCard = 1` … `RoyalFlush = 10`.  The Go type is an `int`. -/
abbrev HandRank := Int

def HighCard : HandRank := 1

def OnePair : HandRank := 2

def TwoPair : HandRank := 3

def ThreeOfAKind : HandRank := 4

def Straight : HandRank := 5

def Flush : HandRank := 6

def FullHouse : HandRank := 7

def FourOfAKind : HandRank := 8

def StraightFlush : HandRank := 9

def RoyalFlush : HandRank := 10

/-- `HandResult` (`evaluator.go` lines 249-254).  The `Label` field is a display
string derived from `Rank` via `HandRankNames` and takes no part in evaluation or
comparison; it is omitted here.  The `rank` field's Go type `HandRank` is an `int`;
it is declared as `Int` directly (`HandRank` is definitionally `Int`). -/
structure HandResult where
  rank : Int
  kickers : List Int
deriving DecidableEq

/-- The kicker loop of `Compare` (`evaluator.go` lines 267-274): element-wise
comparison while both lists have elements; `0` once either is exhausted. -/
def lexInts : List Int → List Int → Int
  | x :: xs, y :: ys =>
    if x > y then 1
    else if x < y then -1
    else lexInts xs ys
  | _, _ => 0

/-- `HandResult.Compare` (`evaluator.go` lines 256-277): rank ordinals first, then
the kicker signatures element-wise.  Returns 1 / -1 / 0 as the Go method does. -/
def Compare (h1 h2 : HandResult) : Int :=
  if h1.rank ≠ h2.rank then
    if h1.rank > h2.rank then 1 else -1
  else
    lexInts h1.kickers h2.kickers

/-- `rankCounts` (`evaluator.go` lines 279-286): how many cards of each rank the
hand holds.  The Go associative map is modelled as its lookup function. -/
def rankCounts (cards : List Card) (r : Rank) : Nat :=
  (cards.map (fun c => c.rank)).count r

/-- The rank-value lookup inside the `countsList` construction
(`evaluator.go` lines 54-61): index of the rank in `RankOrder`, defaulting to `0`
when absent (dead code: every rank occurs). -/
def rankOrderValue (r : Rank) : Int :=
  match RankOrder.findIdx? (fun x => x == r) with
  | some i => (i : Int)
  | none => 0

/-- Sort order used on `countsList` entries `(value, count)`
(`evaluator.go` lines 65-73): count descending, then rank value descending. -/
def countRel (p q : Int × Nat) : Prop :=
  q.2 < p.2 ∨ (q.2 = p.2 ∧ q.1 ≤ p.1)

instance : DecidableRel countRel := fun p q =>
  inferInstanceAs (Decidable (q.2 < p.2 ∨ (q.2 = p.2 ∧ q.1 ≤ p.1)))

instance : IsTotal (Int × Nat) countRel :=
  ⟨fun p q => by
    rcases Nat.lt_trichotomy p.2 q.2 with h | h | h
    · exact Or.inr (Or.inl h)
    · rcases le_total q.1 p.1 with h1 | h1
      · exact Or.inl (Or.inr ⟨h.symm, h1⟩)
      · exact Or.inr (Or.inr ⟨h, h1⟩)
    · exact Or.inl (Or.inl h)⟩

instance : IsTrans (Int × Nat) countRel :=
  ⟨fun a b c hab hbc => by
    rcases hab with h1 | ⟨h1, h1v⟩ <;> rcases hbc with h2 | ⟨h2, h2v⟩
    · exact Or.inl (lt_trans h2 h1)
    · exact Or.inl (h2 ▸ h1)
    · exact Or.inl (h1 ▸ h2)
    · exact Or.inr ⟨h2.trans h1, le_trans h2v h1v⟩⟩

/-- `countsList` (`evaluator.go` lines 46-73): one `(value, count)` entry per rank
present in the hand, sorted by count descending then rank value descending.  The Go
code iterates an associative map in unspecified order and then sorts; distinct ranks
have distinct rank values, so the sort key is strict and the sorted list does not
depend on the iteration order, which we fix as first-occurrence order.  The entry's
`rank` component is used only to look up the value and is dropped here. -/
def countsList (cards : List Card) : List (Int × Nat) :=
  let presentRanks := (cards.map (fun c => c.rank)).dedup
  let entries := presentRanks.map (fun r => (rankOrderValue r, rankCounts cards r))
  List.insertionSort countRel entries

/-- `isFlush` (`evaluator.go` lines 288-300): fewer than 5 cards is never a flush;
otherwise every card must share the first card's suit. -/
def isFlush (cards : List Card) : Bool :=
  if cards.length < 5 then false
  else
    match cards with
    | [] => false
    | c :: rest => rest.all (fun d => d.suit == c.suit)

/-- The run scan of `isStraight` (`evaluator.go` lines 330-335): first window of 5
descending distinct values whose extremes differ by 4, i.e. 5 consecutive values. -/
def findRun : List Int → Option Int
  | v0 :: v1 :: v2 :: v3 :: v4 :: rest =>
    if v0 - v4 == 4 then some v0
    else findRun (v1 :: v2 :: v3 :: v4 :: rest)
  | _ => none

/-- Descending order on `Int`, the sort order of the distinct rank values in
`isStraight` (`evaluator.go` lines 321-328). -/
def intDesc (a b : Int) : Prop := b ≤ a

instance : DecidableRel intDesc := fun a b => inferInstanceAs (Decidable (b ≤ a))

instance : IsTotal Int intDesc := ⟨fun a b => le_total b a⟩

instance : IsTrans Int intDesc := ⟨fun _ _ _ hab hbc => le_trans hbc hab⟩

/-- `isStraight` (`evaluator.go` lines 302-343): collect the distinct rank values,
sort them descending, look for 5 consecutive values, else check the ace-low wheel
`A-2-3-4-5` (values 12,0,1,2,3), which counts as a straight with high value 3. -/
def isStraight (cards : List Card) : Bool × Int :=
  if cards.length < 5 then (false, 0)
  else
    let rankValues := (cards.map Card.RankValue).dedup
    let values := List.insertionSort intDesc rankValues
    match findRun values with
    | some v => (true, v)
    | none =>
      if (12 : Int) ∈ rankValues ∧ (0 : Int) ∈ rankValues ∧ (1 : Int) ∈ rankValues ∧
          (2 : Int) ∈ rankValues ∧ (3 : Int) ∈ rankValues then (true, 3)
      else (false, 0)

/-- Descending order on cards by rank value, the sort performed at the start of
`evaluateFiveCardHand` (`evaluator.go` lines 30-40).  The Go nested-loop sort
produces some descending-by-rank-value permutation of the hand; every later use
depends only on the multiset of cards and on the sorted sequence of rank values,
both of which any such permutation determines, so insertion sort is a faithful
model. -/
def byRankDesc (c d : Card) : Prop := d.RankValue ≤ c.RankValue

instance : DecidableRel byRankDesc := fun c d =>
  inferInstanceAs (Decidable (d.RankValue ≤ c.RankValue))

instance : IsTotal Card byRankDesc := ⟨fun c d => le_total d.RankValue c.RankValue⟩

instance : IsTrans Card byRankDesc := ⟨fun _ _ _ hab hbc => le_trans hbc hab⟩

def sortCardsDesc (cards : List Card) : List Card :=
  List.insertionSort byRankDesc cards

/-- The body of `evaluateFiveCardHand` after the sort (`evaluator.go` lines 42-188):
the priority chain of hand categories, first match wins.  `countsList` indexing
`countsList[0]`/`[1]`/`[2]` is modelled with `getD`; each such access sits behind the
same length guard as in the source, so the default `(0, 0)` is never read on the
guarded paths. -/
def handFromSorted (sortedCards : List Card) : HandResult :=
  let cl := countsList sortedCards
  let flush := isFlush sortedCards
  let s := isStraight sortedCards
  let straight := s.1
  let straightHigh := s.2
  let c0 := cl.getD 0 (0, 0)
  let c1 := cl.getD 1 (0, 0)
  let c2 := cl.getD 2 (0, 0)
  if straight ∧ flush ∧ straightHigh = 12 then
    { rank := RoyalFlush, kickers := [] }
  else if straight ∧ flush then
    { rank := StraightFlush, kickers := [straightHigh] }
  else if 4 ≤ sortedCards.length ∧ c0.2 = 4 then
    { rank := FourOfAKind, kickers := c0.1 :: (if 1 < cl.length then [c1.1] else []) }
  else if 5 ≤ sortedCards.length ∧ c0.2 = 3 ∧ 2 ≤ c1.2 then
    { rank := FullHouse, kickers := [c0.1, c1.1] }
  else if flush then
    { rank := Flush, kickers := sortedCards.map Card.RankValue }
  else if straight then
    { rank := Straight, kickers := [straightHigh] }
  else if 3 ≤ sortedCards.length ∧ c0.2 = 3 then
    { rank := ThreeOfAKind, kickers := c0.1 :: (cl.drop 1).map (fun p => p.1) }
  else if 4 ≤ sortedCards.length ∧ c0.2 = 2 ∧ c1.2 = 2 then
    { rank := TwoPair, kickers := [c0.1, c1.1] ++ (if 2 < cl.length then [c2.1] else []) }
  else if 2 ≤ sortedCards.length ∧ c0.2 = 2 then
    { rank := OnePair, kickers := c0.1 :: (cl.drop 1).map (fun p => p.1) }
  else
    { rank := HighCard, kickers := sortedCards.map Card.RankValue }

/-- `evaluateFiveCardHand` (`evaluator.go` lines 28-188): sort a copy of the cards
by rank value descending, then run the category chain. -/
def evaluateFiveCardHand (cards : List Card) : HandResult :=
  handFromSorted (sortCardsDesc cards)

/-- `generateCombinations` (`evaluator.go` lines 190-212): all k-card combinations,
keeping the input order within each combination; same combinations in the same order
as the Go index-based backtracking. -/
def generateCombinations : List Card → Nat → List (List Card)
  | _, 0 => [[]]
  | [], _ + 1 => []
  | c :: rest, k + 1 =>
    ((generateCombinations rest k).map (fun combo => c :: combo)) ++
      generateCombinations rest (k + 1)

/-- One step of the best-hand fold in `EvaluateHand` (`evaluator.go` lines 18-23):
keep the incumbent unless the new combination evaluates strictly higher. -/
def bestHandStep (best : Option HandResult) (combo : List Card) : Option HandResult :=
  let result := evaluateFiveCardHand combo
  match best with
  | none => some result
  | some b => if 0 < Compare result b then some result else some b

/-- `EvaluateHand` (`evaluator.go` lines 5-26): `none` for an empty input (`nil` in
Go), direct evaluation below 5 cards, otherwise the best 5-card combination. -/
def EvaluateHand (cards : List Card) : Option HandResult :=
  if cards.length < 1 then none
  else if cards.length < 5 then some (evaluateFiveCardHand cards)
  else (generateCombinations cards 5).foldl bestHandStep none

/-- List element swap, the body of the Fisher–Yates loop
(`main.go` line 237: `deck[i], deck[j] = deck[j], deck[i]`).  Both reads happen
before either write, hence the two `set`s use the original elements.  Out-of-range
indices leave the list unchanged (the loop only produces in-range indices; Go would
panic there). -/
def swapL (l : List Card) (i j : Nat) : List Card :=
  match l[i]?, l[j]? with
  | some a, some b => (l.set i b).set j a
  | _, _ => l

/-- The Fisher–Yates countdown of `shuffleDeck` (`main.go` lines 234-239).  The
counter argument is the current index `i`; for each `i ≥ 1` the source draws
`j := rng.Intn(i + 1)` and swaps positions `i` and `j`.  `rand.Intn(n)` is modelled
as the stream value at the current read position taken `mod n` (its contract: a
value in `[0, n)`); each draw advances the read position by one. -/
def fyLoop (rng : Nat → Nat) : List Card → Nat → Nat → List Card × Nat
  | deck, pos, 0 => (deck, pos)
  | deck, pos, i + 1 =>
    let j := rng pos % (i + 2)
    fyLoop rng (swapL deck (i + 1) j) (pos + 1) i

/-- `shuffleDeck` (`main.go` lines 233-239): in-place Fisher–Yates over the whole
slice, indices from `len(deck) - 1` down to `1`.  Returns the shuffled deck together
with the advanced stream position (the in-place mutation and the generator state of
the source, made explicit). -/
def shuffleDeck (deck : List Card) (rng : Nat → Nat) (pos : Nat) : List Card × Nat :=
  fyLoop rng deck pos (deck.length - 1)

/-- The opponent deal of one trial (`main.go` lines 198-203): two consecutive cards
per opponent, starting right after the board-completion cards (the caller passes the
deck with those already dropped).  On a too-short deck Go would index out of range
and panic; the model stops dealing there (unreachable for valid requests). -/
def dealOpponents : Nat → List Card → List (List Card)
  | 0, _ => []
  | n + 1, c1 :: c2 :: rest => [c1, c2] :: dealOpponents n rest
  | _ + 1, _ => []

/-- The opponent maximum of one trial (`main.go` lines 208-216): fold the opponents'
evaluations keeping the strongest.  `EvaluateHand` yields `some` for every opponent
(each hand has ≥ 2 cards), so the `none` branches are unreachable; Go would
dereference `nil` there. -/
def bestOpponentResult (oppHands : List (List Card)) (fullBoard : List Card) :
    Option HandResult :=
  oppHands.foldl
    (fun bestOpponent oppHole =>
      let oppResult := EvaluateHand (oppHole ++ fullBoard)
      match bestOpponent, oppResult with
      | none, r => r
      | some b, some r => if 0 < Compare r b then some r else some b
      | some b, none => some b)
    none

/-- The classification of one trial after the shuffle (`main.go` lines 193-223):
complete the board from the deck prefix, deal the opponents, evaluate the player's
and every opponent's 7 cards, and compare the player to the strongest opponent.
Returns the Go `comparison` value (`> 0` win, `= 0` tie, `< 0` loss).  When the
player result or the opponent maximum is absent (empty player hand or zero
opponents) Go dereferences `nil`; the model returns `0` there (unreachable for
valid requests). -/
def trialComparison (deck hole board : List Card) (numOpponents : Nat) : Int :=
  let missingCards := 5 - board.length
  let fullBoard := board ++ deck.take missingCards
  let opponentHands := dealOpponents numOpponents (deck.drop missingCards)
  let playerResult := EvaluateHand (hole ++ fullBoard)
  match playerResult, bestOpponentResult opponentHands fullBoard with
  | some p, some b => Compare p b
  | _, _ => 0

/-- `workerResult` (`main.go` lines 172-177). -/
structure workerResult where
  wins : Nat
  ties : Nat
  simulations : Nat
deriving DecidableEq

/-- The trial loop of `runSimulations` (`main.go` lines 190-224): the deck is
shuffled in place at the start of each trial, so its state (and the generator
position) carries from one trial to the next; `wins`/`ties` accumulate. -/
def simLoop (hole board : List Card) (numOpponents : Nat) (rng : Nat → Nat) :
    Nat → List Card → Nat → Nat → Nat → Nat × Nat
  | 0, _, _, wins, ties => (wins, ties)
  | n + 1, deck, pos, wins, ties =>
    let s := shuffleDeck deck rng pos
    let comparison := trialComparison s.1 hole board numOpponents
    if 0 < comparison then
      simLoop hole board numOpponents rng n s.1 s.2 (wins + 1) ties
    else if comparison = 0 then
      simLoop hole board numOpponents rng n s.1 s.2 wins (ties + 1)
    else
      simLoop hole board numOpponents rng n s.1 s.2 wins ties

/-- `runSimulations` (`main.go` lines 179-231): build the working deck (full deck
minus the known cards), run the assigned number of trials, and report the counters
together with the assigned trial count.  The worker's private random stream is the
explicit `rng` parameter (see `workerSeed` for how the source seeds it). -/
def runSimulations (hole board : List Card) (numOpponents simulations : Nat)
    (rng : Nat → Nat) : workerResult :=
  let known := hole ++ board
  let deck := RemoveCards NewDeck known
  let wt := simLoop hole board numOpponents rng simulations deck 0 0 0
  { wins := wt.1, ties := wt.2, simulations := simulations }

/-- The seed each worker feeds to `rand.NewSource` (`main.go` line 187):
`time.Now().UnixNano()`, the wall-clock reading at the worker's start, and nothing
else — the worker index `i` appears nowhere in the source expression and is listed
here only so that the dependence (none) on it can be stated. -/
def workerSeed (i : Nat) (nowUnixNano : Int) : Int := nowUnixNano

/-- Worker defaulting (`main.go` lines 117-119): fewer than 1 worker becomes 4. -/
def defaultWorkers (workers : Int) : Nat :=
  if workers < 1 then 4 else workers.toNat

/-- Simulation-count defaulting (`main.go` lines 120-122): fewer than 1 becomes
10000. -/
def defaultSimulations (simulations : Int) : Nat :=
  if simulations < 1 then 10000 else simulations.toNat

/-- Per-worker trial share (`main.go` lines 124-137): `simulations / workers` plus
one extra for the first `simulations % workers` workers. -/
def simsForWorker (simulations workers i : Nat) : Nat :=
  simulations / workers + (if i < simulations % workers then 1 else 0)

/-- The list of per-worker results gathered by `CalculateOdds` (`main.go` lines
127-161).  Worker `i` runs its share of trials on its own random stream `rngs i`.
The Go workers report through a channel in completion order; the aggregation only
sums the components, and summation is commutative, so the model fixes launch
order. -/
def workerResults (hole board : List Card) (numOpponents : Nat) (s w : Nat)
    (rngs : Nat → Nat → Nat) : List workerResult :=
  (List.range w).map (fun i =>
    runSimulations hole board numOpponents (simsForWorker s w i) (rngs i))

/-- `OddsResult` (`main.go` lines 108-113): win/tie/loss probabilities.  The Go
`float64` fields are modelled as exact rationals. -/
structure OddsResult where
  Win : ℚ
  Tie : ℚ
  Loss : ℚ
deriving DecidableEq

/-- `CalculateOdds` (`main.go` lines 115-170): default the parameters, partition the
trials over the workers, aggregate the workers' win/tie/trial counts, and convert to
probabilities by dividing each count by the trial total. -/
def CalculateOdds (hole board : List Card) (numOpponents : Nat)
    (simulations workers : Int) (rngs : Nat → Nat → Nat) : OddsResult :=
  let w := defaultWorkers workers
  let s := defaultSimulations simulations
  let results := workerResults hole board numOpponents s w rngs
  let totalWins : Nat := (results.map (fun r => r.wins)).sum
  let totalTies : Nat := (results.map (fun r => r.ties)).sum
  let totalSims : Nat := (results.map (fun r => r.simulations)).sum
  let totalLosses : Int := (totalSims : Int) - (totalWins : Int) - (totalTies : Int)
  { Win := (totalWins : ℚ) / (totalSims : ℚ)
    Tie := (totalTies : ℚ) / (totalSims : ℚ)
    Loss := (totalLosses : ℚ) / (totalSims : ℚ) }

/-! ## Lemmas about the kicker comparison -/

theorem lexInts_nil_left (ys : List Int) : lexInts [] ys = 0 := rfl

theorem lexInts_nil_right (xs : List Int) : lexInts xs [] = 0 := by
  cases xs <;> rfl

theorem lexInts_cons (x y : Int) (xs ys : List Int) :
    lexInts (x :: xs) (y :: ys) =
      if x > y then 1 else if x < y then -1 else lexInts xs ys := rfl

/-- `lexInts` only returns -1, 0 or 1. -/
theorem lexInts_values (xs : List Int) :
    ∀ ys, lexInts xs ys = -1 ∨ lexInts xs ys = 0 ∨ lexInts xs ys = 1 := by
  induction xs with
  | nil => exact fun ys => Or.inr (Or.inl rfl)
  | cons x xt ih =>
    intro ys
    cases ys with
    | nil => exact Or.inr (Or.inl (lexInts_nil_right _))
    | cons y yt =>
      rw [lexInts_cons]
      split_ifs
      · exact Or.inr (Or.inr rfl)
      · exact Or.inl rfl
      · exact ih yt

theorem lexInts_refl (xs : List Int) : lexInts xs xs = 0 := by
  induction xs with
  | nil => rfl
  | cons x xt ih => rw [lexInts_cons]; simp [ih]

theorem lexInts_antisymm (xs : List Int) :
    ∀ ys, lexInts xs ys = -lexInts ys xs := by
  induction xs with
  | nil => intro ys; rw [lexInts_nil_left, lexInts_nil_right]; rfl
  | cons x xt ih =>
    intro ys
    cases ys with
    | nil => rw [lexInts_nil_left, lexInts_nil_right]; rfl
    | cons y yt =>
      rw [lexInts_cons, lexInts_cons]
      split_ifs <;> first | omega | rw [ih yt]

/-- Strict dominance chains through `lexInts` even though signatures may have
different lengths (a strict verdict is never produced by the truncation). -/
theorem lexInts_trans_pos (as : List Int) :
    ∀ bs cs, lexInts as bs = 1 → lexInts bs cs = 1 → lexInts as cs = 1 := by
  induction as with
  | nil => intro bs cs h1; rw [lexInts_nil_left] at h1; omega
  | cons a at1 ih =>
    intro bs cs h1 h2
    cases bs with
    | nil => rw [lexInts_nil_right] at h1; omega
    | cons b bt =>
      cases cs with
      | nil => rw [lexInts_nil_right] at h2; omega
      | cons c ct =>
        rw [lexInts_cons] at h1 h2 ⊢
        split_ifs at h1 h2 ⊢ <;> first | omega | exact ih bt ct h1 h2

/-- Mixed transitivity: a non-strict verdict against `bs` and a strict one by `es`
over `bs` give a non-strict verdict against `es`. -/
theorem lexInts_le_of_le_of_lt (xs : List Int) :
    ∀ bs es, lexInts xs bs ≤ 0 → 0 < lexInts es bs → lexInts xs es ≤ 0 := by
  induction xs with
  | nil => intro bs es h1 h2; rw [lexInts_nil_left]
  | cons x xt ih =>
    intro bs es h1 h2
    cases es with
    | nil => rw [lexInts_nil_right]
    | cons e et =>
      cases bs with
      | nil => rw [lexInts_nil_right] at h2; omega
      | cons b bt =>
        rw [lexInts_cons] at h1 h2 ⊢
        split_ifs at h1 h2 ⊢ <;> first | omega | exact ih bt et h1 h2

/-- Mixed transitivity: a strict verdict below `es` and a non-strict one of `es`
against `rs` give a non-strict verdict against `rs`. -/
theorem lexInts_le_of_lt_of_le (bs : List Int) :
    ∀ es rs, lexInts bs es < 0 → lexInts es rs ≤ 0 → lexInts bs rs ≤ 0 := by
  induction bs with
  | nil => intro es rs h1 h2; rw [lexInts_nil_left]
  | cons b bt ih =>
    intro es rs h1 h2
    cases rs with
    | nil => rw [lexInts_nil_right]
    | cons r rt =>
      cases es with
      | nil => rw [lexInts_nil_right] at h1; omega
      | cons e et =>
        rw [lexInts_cons] at h1 h2 ⊢
        split_ifs at h1 h2 ⊢ <;> first | omega | exact ih et rt h1 h2

/-! ## Lemmas about `Compare` -/

/-- `Compare` is the element-wise comparison of the rank-prefixed signatures. -/
theorem Compare_eq_lexInts (a b : HandResult) :
    Compare a b = lexInts (a.rank :: a.kickers) (b.rank :: b.kickers) := by
  unfold Compare
  rw [lexInts_cons]
  by_cases h : a.rank = b.rank
  · rw [if_neg (by omega : ¬a.rank ≠ b.rank), if_neg (by omega : ¬a.rank > b.rank),
      if_neg (by omega : ¬a.rank < b.rank)]
  · rw [if_pos h]
    by_cases hgt : a.rank > b.rank
    · rw [if_pos hgt, if_pos hgt]
    · rw [if_neg hgt, if_neg hgt, if_pos (by omega : a.rank < b.rank)]

theorem Compare_self (a : HandResult) : Compare a a = 0 := by
  rw [Compare_eq_lexInts]; exact lexInts_refl _

theorem Compare_antisymm (a b : HandResult) : Compare a b = -Compare b a := by
  rw [Compare_eq_lexInts, Compare_eq_lexInts]; exact lexInts_antisymm _ _

theorem Compare_values (a b : HandResult) :
    Compare a b = -1 ∨ Compare a b = 0 ∨ Compare a b = 1 := by
  rw [Compare_eq_lexInts]; exact lexInts_values _ _

theorem Compare_trans_pos {a b c : HandResult} :
    Compare a b = 1 → Compare b c = 1 → Compare a c = 1 := by
  rw [Compare_eq_lexInts, Compare_eq_lexInts, Compare_eq_lexInts]
  exact lexInts_trans_pos _ _ _

theorem Compare_le_of_le_of_lt {x b e : HandResult} :
    Compare x b ≤ 0 → 0 < Compare e b → Compare x e ≤ 0 := by
  rw [Compare_eq_lexInts, Compare_eq_lexInts, Compare_eq_lexInts]
  exact lexInts_le_of_le_of_lt _ _ _

theorem Compare_le_of_lt_of_le {b e r : HandResult} :
    Compare b e < 0 → Compare e r ≤ 0 → Compare b r ≤ 0 := by
  rw [Compare_eq_lexInts, Compare_eq_lexInts, Compare_eq_lexInts]
  exact lexInts_le_of_lt_of_le _ _ _

/-! ## The 5-of-n combination search -/

theorem generateCombinations_length :
    ∀ (l : List Card) (k : Nat), (generateCombinations l k).length = l.length.choose k
  | _, 0 => by simp [generateCombinations]
  | [], _ + 1 => by simp [generateCombinations]
  | c :: rest, k + 1 => by
    simp [generateCombinations, generateCombinations_length rest k,
      generateCombinations_length rest (k + 1), Nat.choose_succ_succ]

theorem bestHandStep_none (c : List Card) :
    bestHandStep none c = some (evaluateFiveCardHand c) := rfl

theorem bestHandStep_some (b : HandResult) (c : List Card) :
    bestHandStep (some b) c =
      if 0 < Compare (evaluateFiveCardHand c) b then some (evaluateFiveCardHand c)
      else some b := rfl

/-- Invariant of the best-hand fold: starting from an incumbent `b`, the fold ends
on a result `r` that is `b` or strictly beats it, that no processed combination's
evaluation strictly beats, and that is the incumbent or one of the evaluations. -/
theorem foldl_bestHandStep (combos : List (List Card)) :
    ∀ b : HandResult,
      ∃ r, combos.foldl bestHandStep (some b) = some r ∧
        (r = b ∨ Compare b r < 0) ∧
        (∀ c ∈ combos, Compare (evaluateFiveCardHand c) r ≤ 0) ∧
        (r = b ∨ ∃ c ∈ combos, r = evaluateFiveCardHand c) := by
  induction combos with
  | nil =>
    intro b
    exact ⟨b, rfl, Or.inl rfl, by simp, Or.inl rfl⟩
  | cons c rest ih =>
    intro b
    rw [List.foldl_cons, bestHandStep_some]
    by_cases hcb : 0 < Compare (evaluateFiveCardHand c) b
    · rw [if_pos hcb]
      obtain ⟨r, hr, hbr, hall, hmem⟩ := ih (evaluateFiveCardHand c)
      refine ⟨r, hr, ?_, ?_, ?_⟩
      · right
        rcases hbr with heq | hlt
        · have ha := Compare_antisymm b r
          rw [heq] at ha ⊢
          omega
        · have h1 : Compare r (evaluateFiveCardHand c) = 1 := by
            have ha := Compare_antisymm (evaluateFiveCardHand c) r
            have hv := Compare_values r (evaluateFiveCardHand c)
            omega
          have h2 : Compare (evaluateFiveCardHand c) b = 1 := by
            have hv := Compare_values (evaluateFiveCardHand c) b
            omega
          have h3 := Compare_trans_pos h1 h2
          have ha := Compare_antisymm b r
          rw [h3] at ha
          omega
      · intro d hd
        rcases List.mem_cons.mp hd with rfl | hd'
        · rcases hbr with heq | hlt
          · rw [heq]
            exact le_of_eq (Compare_self _)
          · exact le_of_lt hlt
        · exact hall d hd'
      · right
        rcases hmem with heq | ⟨d, hd, heq⟩
        · exact ⟨c, List.mem_cons_self c rest, heq⟩
        · exact ⟨d, List.mem_cons_of_mem c hd, heq⟩
    · rw [if_neg hcb]
      obtain ⟨r, hr, hbr, hall, hmem⟩ := ih b
      refine ⟨r, hr, hbr, ?_, ?_⟩
      · intro d hd
        rcases List.mem_cons.mp hd with rfl | hd'
        · have hle : Compare (evaluateFiveCardHand d) b ≤ 0 := by
            have hv := Compare_values (evaluateFiveCardHand d) b
            omega
          rcases hbr with heq | hlt
          · rw [heq]
            exact hle
          · have hrb : 0 < Compare r b := by
              have ha := Compare_antisymm b r
              omega
            exact Compare_le_of_le_of_lt hle hrb
        · exact hall d hd'
      · rcases hmem with heq | ⟨d, hd, heq⟩
        · exact Or.inl heq
        · exact Or.inr ⟨d, List.mem_cons_of_mem c hd, heq⟩

/-- C1: for an input of 5 to 7 cards, `EvaluateHand` returns a `HandResult` that is
maximal under `Compare` over the single-5-card evaluations of all 5-card subsets of
the input (no subset's evaluation compares greater, and the result is one of those
evaluations); for a 7-card input the subsets number C(7,5) = 21. -/
theorem C1_EvaluateHand_is_max (cards : List Card) (h5 : 5 ≤ cards.length)
    (h7 : cards.length ≤ 7) :
    ∃ r, EvaluateHand cards = some r ∧
      (∀ combo ∈ generateCombinations cards 5,
        Compare (evaluateFiveCardHand combo) r ≤ 0) ∧
      (∃ combo ∈ generateCombinations cards 5, r = evaluateFiveCardHand combo) ∧
      (cards.length = 7 → (generateCombinations cards 5).length = 21) := by
  have hpos : 0 < (generateCombinations cards 5).length := by
    rw [generateCombinations_length]
    exact Nat.choose_pos h5
  obtain ⟨c, rest, hcr⟩ := List.exists_cons_of_ne_nil (List.ne_nil_of_length_pos hpos)
  have hEv : EvaluateHand cards = (generateCombinations cards 5).foldl bestHandStep none := by
    unfold EvaluateHand
    rw [if_neg (by omega), if_neg (by omega)]
  obtain ⟨r, hr, hbr, hall, hmem⟩ := foldl_bestHandStep rest (evaluateFiveCardHand c)
  refine ⟨r, ?_, ?_, ?_, ?_⟩
  · rw [hEv, hcr, List.foldl_cons, bestHandStep_none]
    exact hr
  · intro combo hcombo
    rw [hcr] at hcombo
    rcases List.mem_cons.mp hcombo with rfl | hcombo'
    · rcases hbr with heq | hlt
      · rw [heq]
        exact le_of_eq (Compare_self _)
      · exact le_of_lt hlt
    · exact hall combo hcombo'
  · rcases hmem with heq | ⟨d, hd, heq⟩
    · exact ⟨c, by rw [hcr]; exact List.mem_cons_self c rest, heq⟩
    · exact ⟨d, by rw [hcr]; exact List.mem_cons_of_mem c hd, heq⟩
  · intro h7eq
    rw [generateCombinations_length, h7eq]
    decide

/-- A concrete 7-card input (royal flush in spades plus two off cards). -/
def witnessCards7 : List Card :=
  [⟨.Ace, .Spades⟩, ⟨.King, .Spades⟩, ⟨.Queen, .Spades⟩, ⟨.Jack, .Spades⟩,
   ⟨.Ten, .Spades⟩, ⟨.Two, .Diamonds⟩, ⟨.Three, .Clubs⟩]

/-- Witness for C1 at a concrete 7-card input. -/
theorem C1_witness :
    ∃ r, EvaluateHand witnessCards7 = some r ∧
      (∀ combo ∈ generateCombinations witnessCards7 5,
        Compare (evaluateFiveCardHand combo) r ≤ 0) ∧
      (∃ combo ∈ generateCombinations witnessCards7 5, r = evaluateFiveCardHand combo) ∧
      (witnessCards7.length = 7 → (generateCombinations witnessCards7 5).length = 21) :=
  C1_EvaluateHand_is_max witnessCards7 (by decide) (by decide)

/-- C6: `Compare` compares category ordinals first and, on equal category, compares
kicker signatures element-wise until a difference is found or a signature is
exhausted; it is antisymmetric, transitive on same-category hands, and a strictly
higher category always compares greater regardless of kicker contents. -/
theorem C6_Compare_order (a b c : HandResult) :
    (a.rank ≠ b.rank → Compare a b = if a.rank > b.rank then 1 else -1) ∧
    (a.rank = b.rank → Compare a b = lexInts a.kickers b.kickers) ∧
    (Compare a b = -Compare b a) ∧
    (b.rank < a.rank → Compare a b = 1) ∧
    (a.rank = b.rank → b.rank = c.rank →
      Compare a b = 1 → Compare b c = 1 → Compare a c = 1) := by
  refine ⟨?_, ?_, Compare_antisymm a b, ?_, ?_⟩
  · intro h
    unfold Compare
    rw [if_pos h]
  · intro h
    unfold Compare
    rw [if_neg (not_not_intro h)]
  · intro h
    unfold Compare
    rw [if_pos (by omega : a.rank ≠ b.rank), if_pos h]
  · intro _ _ hab hbc
    exact Compare_trans_pos hab hbc

/-- Witness for C6: category dominance, antisymmetry and same-category
transitivity at concrete hand results. -/
theorem C6_witness :
    Compare ⟨8, [5, 2]⟩ ⟨7, [12, 11]⟩ = 1 ∧
    Compare ⟨5, [9]⟩ ⟨5, [7]⟩ = -Compare ⟨5, [7]⟩ ⟨5, [9]⟩ ∧
    Compare ⟨5, [9]⟩ ⟨5, [3]⟩ = 1 :=
  ⟨(C6_Compare_order ⟨8, [5, 2]⟩ ⟨7, [12, 11]⟩ ⟨1, []⟩).2.2.2.1 (by decide),
   (C6_Compare_order ⟨5, [9]⟩ ⟨5, [7]⟩ ⟨1, []⟩).2.2.1,
   (C6_Compare_order ⟨5, [9]⟩ ⟨5, [7]⟩ ⟨5, [3]⟩).2.2.2.2 rfl rfl (by decide) (by decide)⟩

/-- C7: `EvaluateHand` yields `none` exactly for an empty input; any 1 to 7 cards
produce a present result. -/
theorem C7_EvaluateHand_none_iff_empty (cards : List Card) (hle : cards.length ≤ 7) :
    (EvaluateHand cards = none ↔ cards.length = 0) ∧
    (1 ≤ cards.length → ∃ r, EvaluateHand cards = some r) := by
  have main : 1 ≤ cards.length → ∃ r, EvaluateHand cards = some r := by
    intro h1
    by_cases h5 : cards.length < 5
    · exact ⟨evaluateFiveCardHand cards, by
        unfold EvaluateHand
        rw [if_neg (by omega), if_pos h5]⟩
    · have hpos : 0 < (generateCombinations cards 5).length := by
        rw [generateCombinations_length]
        exact Nat.choose_pos (by omega)
      obtain ⟨c, rest, hcr⟩ := List.exists_cons_of_ne_nil (List.ne_nil_of_length_pos hpos)
      obtain ⟨r, hr, _, _, _⟩ := foldl_bestHandStep rest (evaluateFiveCardHand c)
      refine ⟨r, ?_⟩
      unfold EvaluateHand
      rw [if_neg (by omega), if_neg (by omega), hcr, List.foldl_cons, bestHandStep_none]
      exact hr
  refine ⟨⟨?_, ?_⟩, main⟩
  · intro hnone
    by_contra hne
    obtain ⟨r, hr⟩ := main (by omega)
    rw [hr] at hnone
    exact Option.noConfusion hnone
  · intro h0
    unfold EvaluateHand
    rw [if_pos (by omega)]

/-- Witness for C7 at a concrete 1-card input. -/
theorem C7_witness :
    (EvaluateHand [(⟨.Ace, .Spades⟩ : Card)] = none ↔
      ([(⟨.Ace, .Spades⟩ : Card)] : List Card).length = 0) ∧
    (∃ r, EvaluateHand [(⟨.Ace, .Spades⟩ : Card)] = some r) :=
  ⟨(C7_EvaluateHand_none_iff_empty [⟨.Ace, .Spades⟩] (by decide)).1,
   (C7_EvaluateHand_none_iff_empty [⟨.Ace, .Spades⟩] (by decide)).2 (by decide)⟩

/-! ## The ace-low wheel straight -/

instance : IsAntisymm Int intDesc := ⟨fun _ _ h1 h2 => le_antisymm h2 h1⟩

theorem findRun_wheel : findRun [12, 3, 2, 1, 0] = none := by decide

/-- Any 5-card hand whose rank values form exactly the set {12, 0, 1, 2, 3}
(ace, two, three, four, five) is detected as a straight with high value 3. -/
theorem isStraight_wheel (l : List Card) (hlen : l.length = 5)
    (hsub : ∀ v ∈ l.map Card.RankValue, v ∈ ([12, 0, 1, 2, 3] : List Int))
    (hsup : ∀ v ∈ ([12, 0, 1, 2, 3] : List Int), v ∈ l.map Card.RankValue) :
    isStraight l = (true, 3) := by
  have hmemiff : ∀ v : Int,
      v ∈ (l.map Card.RankValue).dedup ↔ v ∈ ([12, 3, 2, 1, 0] : List Int) := by
    intro v
    rw [List.mem_dedup]
    constructor
    · intro hv
      have := hsub v hv
      simp only [List.mem_cons, List.not_mem_nil, or_false] at this ⊢
      tauto
    · intro hv
      apply hsup
      simp only [List.mem_cons, List.not_mem_nil, or_false] at hv ⊢
      tauto
  have hperm : ((l.map Card.RankValue).dedup).Perm ([12, 3, 2, 1, 0] : List Int) :=
    (List.perm_ext_iff_of_nodup (List.nodup_dedup _) (by decide)).mpr hmemiff
  have hsorted : List.insertionSort intDesc ((l.map Card.RankValue).dedup) =
      ([12, 3, 2, 1, 0] : List Int) :=
    List.eq_of_perm_of_sorted ((List.perm_insertionSort intDesc _).trans hperm)
      (List.sorted_insertionSort intDesc _) (by decide)
  unfold isStraight
  rw [if_neg (by omega)]
  simp only [hsorted, findRun_wheel]
  rw [if_pos ⟨(hmemiff 12).mpr (by decide), (hmemiff 0).mpr (by decide),
    (hmemiff 1).mpr (by decide), (hmemiff 2).mpr (by decide),
    (hmemiff 3).mpr (by decide)⟩]

/-- A hand of at least 5 cards all of one suit is a flush. -/
theorem isFlush_of_same_suit (l : List Card) (hlen : 5 ≤ l.length) (s : Suit)
    (hall : ∀ c ∈ l, c.suit = s) : isFlush l = true := by
  have hne : l ≠ [] := by
    intro h
    rw [h] at hlen
    simp at hlen
  obtain ⟨c0, rest, rfl⟩ := List.exists_cons_of_ne_nil hne
  rw [show isFlush (c0 :: rest) =
      if (c0 :: rest).length < 5 then false
      else rest.all (fun d => d.suit == c0.suit) from rfl]
  rw [if_neg (by simp at hlen ⊢; omega)]
  simp only [List.all_eq_true]
  intro d hd
  rw [hall d (List.mem_cons_of_mem _ hd), hall c0 (List.mem_cons_self _ _)]
  simp

/-- A hand flagged as a 3-high straight and a flush falls into the straight-flush
branch (the royal-flush branch requires straight-high 12). -/
theorem handFromSorted_wheel_SF (l : List Card) (hs : isStraight l = (true, 3))
    (hf : isFlush l = true) :
    handFromSorted l = { rank := StraightFlush, kickers := [3] } := by
  unfold handFromSorted
  rw [hs, hf]
  norm_num

/-- C5: a 5-card hand whose set of rank values is exactly {A,2,3,4,5} (values
{12,0,1,2,3}) is detected by `isStraight` as a straight with high value 3 (ace
playing low); with all five cards of one suit it evaluates to Straight Flush with
kicker signature [3] — never to Royal Flush, which requires straight-high 12. -/
theorem C5_wheel (cards : List Card) (hlen : cards.length = 5)
    (hsub : ∀ v ∈ cards.map Card.RankValue, v ∈ ([12, 0, 1, 2, 3] : List Int))
    (hsup : ∀ v ∈ ([12, 0, 1, 2, 3] : List Int), v ∈ cards.map Card.RankValue) :
    isStraight cards = (true, 3) ∧
    (∀ s : Suit, (∀ c ∈ cards, c.suit = s) →
      evaluateFiveCardHand cards = { rank := StraightFlush, kickers := [3] }) := by
  refine ⟨isStraight_wheel cards hlen hsub hsup, ?_⟩
  intro s hall
  have hperm : (sortCardsDesc cards).Perm cards := List.perm_insertionSort _ _
  have hlen2 : (sortCardsDesc cards).length = 5 := by
    rw [hperm.length_eq, hlen]
  have hmap : ∀ v : Int,
      v ∈ (sortCardsDesc cards).map Card.RankValue ↔ v ∈ cards.map Card.RankValue :=
    fun v => (hperm.map Card.RankValue).mem_iff
  have hs := isStraight_wheel (sortCardsDesc cards) hlen2
    (fun v hv => hsub v ((hmap v).mp hv))
    (fun v hv => (hmap v).mpr (hsup v hv))
  have hf := isFlush_of_same_suit (sortCardsDesc cards) (by omega) s
    (fun c hc => hall c (hperm.mem_iff.mp hc))
  exact handFromSorted_wheel_SF _ hs hf

/-- The steel wheel in spades: A-2-3-4-5 all of one suit. -/
def wheelHand : List Card :=
  [⟨.Ace, .Spades⟩, ⟨.Two, .Spades⟩, ⟨.Three, .Spades⟩, ⟨.Four, .Spades⟩,
   ⟨.Five, .Spades⟩]

/-- Witness for C5 at the concrete steel wheel. -/
theorem C5_witness :
    isStraight wheelHand = (true, 3) ∧
    evaluateFiveCardHand wheelHand = { rank := StraightFlush, kickers := [3] } :=
  ⟨(C5_wheel wheelHand (by decide) (by decide) (by decide)).1,
   (C5_wheel wheelHand (by decide) (by decide) (by decide)).2 .Spades (by decide)⟩

/-! ## The Fisher–Yates shuffle permutes the deck -/

/-- Replacing a known element and re-consing it is a permutation. -/
theorem cons_set_perm (t : List Card) :
    ∀ (m : Nat) (b x : Card), t[m]? = some b → (b :: t.set m x).Perm (x :: t) := by
  induction t with
  | nil =>
    intro m b x h
    simp at h
  | cons y t2 ih =>
    intro m b x h
    cases m with
    | zero =>
      have hyb : y = b := by simpa using h
      subst hyb
      rw [List.set_cons_zero]
      exact List.Perm.swap x y t2
    | succ k =>
      rw [List.set_cons_succ]
      have h2 : t2[k]? = some b := by simpa using h
      exact ((List.Perm.swap y b _).trans ((ih k b x h2).cons y)).trans
        (List.Perm.swap x y t2)

/-- The two-`set` element swap of Fisher–Yates is a permutation. -/
theorem set_set_swap_perm (l : List Card) :
    ∀ (i j : Nat) (a b : Card), l[i]? = some a → l[j]? = some b →
      ((l.set i b).set j a).Perm l := by
  induction l with
  | nil =>
    intro i j a b ha
    simp at ha
  | cons x t ih =>
    intro i j a b ha hb
    cases i with
    | zero =>
      have hxa : x = a := by simpa using ha
      subst hxa
      cases j with
      | zero =>
        have hxb : x = b := by simpa using hb
        subst hxb
        rw [List.set_cons_zero, List.set_cons_zero]
      | succ k =>
        rw [List.set_cons_zero, List.set_cons_succ]
        exact cons_set_perm t k b x (by simpa using hb)
    | succ k =>
      cases j with
      | zero =>
        have hxb : x = b := by simpa using hb
        subst hxb
        rw [List.set_cons_succ, List.set_cons_zero]
        exact cons_set_perm t k a x (by simpa using ha)
      | succ m =>
        rw [List.set_cons_succ, List.set_cons_succ]
        exact (ih k m a b (by simpa using ha) (by simpa using hb)).cons x

theorem swapL_perm (l : List Card) (i j : Nat) : (swapL l i j).Perm l := by
  unfold swapL
  cases hi : l[i]? with
  | none => simp
  | some a =>
    cases hj : l[j]? with
    | none => simp
    | some b =>
      simp only
      exact set_set_swap_perm l i j a b hi hj

theorem fyLoop_perm (rng : Nat → Nat) :
    ∀ (n : Nat) (deck : List Card) (pos : Nat), ((fyLoop rng deck pos n).1).Perm deck := by
  intro n
  induction n with
  | zero =>
    intro deck pos
    exact List.Perm.refl deck
  | succ i ih =>
    intro deck pos
    exact (ih _ _).trans (swapL_perm deck (i + 1) _)

theorem shuffleDeck_perm (deck : List Card) (rng : Nat → Nat) (pos : Nat) :
    ((shuffleDeck deck rng pos).1).Perm deck :=
  fyLoop_perm rng _ deck pos

/-- The full 52-card deck has no duplicates. -/
theorem NewDeck_nodup : NewDeck.Nodup := by decide

/-- C8: `shuffleDeck` permutes the deck for every random stream — same multiset,
same length — and on a duplicate-free deck every prefix of the shuffled deck (in
particular the board-completion cards and the opponents' hole cards, which
`runSimulations` deals from prefix positions) consists of pairwise distinct cards
of that deck; moreover every working deck built by `RemoveCards` from the full deck
is duplicate-free. -/
theorem C8_shuffle_is_perm (deck : List Card) (rng : Nat → Nat) (pos : Nat) :
    ((shuffleDeck deck rng pos).1).Perm deck ∧
    (shuffleDeck deck rng pos).1.length = deck.length ∧
    (deck.Nodup → ∀ k, ((shuffleDeck deck rng pos).1.take k).Nodup ∧
      ∀ c ∈ (shuffleDeck deck rng pos).1.take k, c ∈ deck) ∧
    (∀ known : List Card, (RemoveCards NewDeck known).Nodup) := by
  have hperm := shuffleDeck_perm deck rng pos
  refine ⟨hperm, hperm.length_eq, ?_, ?_⟩
  · intro hnd k
    have hnd2 : (shuffleDeck deck rng pos).1.Nodup := hperm.nodup_iff.mpr hnd
    refine ⟨List.Nodup.sublist (List.take_sublist k _) hnd2, ?_⟩
    intro c hc
    exact hperm.mem_iff.mp ((List.take_sublist k _).subset hc)
  · intro known
    exact List.Nodup.sublist (List.filter_sublist _) NewDeck_nodup

/-- A concrete 3-card deck for the C8 witness. -/
def shuffleWitnessDeck : List Card :=
  [⟨.Ace, .Spades⟩, ⟨.King, .Hearts⟩, ⟨.Two, .Clubs⟩]

/-- Witness for C8 at a concrete deck and stream. -/
theorem C8_witness :
    ((shuffleDeck shuffleWitnessDeck (fun n => n + 1) 0).1).Perm shuffleWitnessDeck ∧
    ((shuffleDeck shuffleWitnessDeck (fun n => n + 1) 0).1.take 2).Nodup := by
  have h := C8_shuffle_is_perm shuffleWitnessDeck (fun n => n + 1) 0
  exact ⟨h.1, (h.2.2.1 (by decide) 2).1⟩

/-! ## Trial partitioning and aggregation -/

theorem sum_map_const_range (n c : Nat) :
    ((List.range n).map (fun _ => c)).sum = n * c := by
  induction n with
  | zero => simp
  | succ m ih =>
    rw [List.range_succ, List.map_append, List.sum_append, ih]
    simp [Nat.succ_mul]

/-- Sum of `base` plus an extra unit for the first `r` of `w` indices. -/
theorem sum_share (base r : Nat) :
    ∀ w, r ≤ w →
      ((List.range w).map (fun i => base + if i < r then 1 else 0)).sum = w * base + r := by
  intro w
  induction w with
  | zero =>
    intro hr
    simp
    omega
  | succ n ih =>
    intro hr
    rw [List.range_succ, List.map_append, List.sum_append]
    simp only [List.map_cons, List.map_nil, List.sum_cons, List.sum_nil]
    by_cases h : r ≤ n
    · rw [ih h, if_neg (by omega)]
      ring
    · have hr1 : r = n + 1 := by omega
      rw [if_pos (by omega)]
      have hconst : ((List.range n).map (fun i => base + if i < r then 1 else 0)).sum
          = ((List.range n).map (fun _ => base + 1)).sum := by
        apply congrArg
        apply List.map_congr_left
        intro i hi
        rw [if_pos (by have := List.mem_range.mp hi; omega)]
      rw [hconst, sum_map_const_range, hr1]
      ring

/-- The per-worker shares sum to the full trial count, for any worker count ≥ 1. -/
theorem sum_simsForWorker (s w : Nat) (hw : 1 ≤ w) :
    ((List.range w).map (simsForWorker s w)).sum = s := by
  have hr : s % w ≤ w := le_of_lt (Nat.mod_lt s (by omega))
  have heta : (List.range w).map (simsForWorker s w) =
      (List.range w).map (fun i => s / w + if i < s % w then 1 else 0) :=
    List.map_congr_left (fun i _ => rfl)
  rw [heta, sum_share (s / w) (s % w) w hr]
  exact Nat.div_add_mod s w

/-- Each trial of the loop adds at most one to the combined win/tie counters. -/
theorem simLoop_wins_ties_le (hole board : List Card) (numOpp : Nat) (rng : Nat → Nat) :
    ∀ (n : Nat) (deck : List Card) (pos wins ties : Nat),
      (simLoop hole board numOpp rng n deck pos wins ties).1 +
        (simLoop hole board numOpp rng n deck pos wins ties).2 ≤ wins + ties + n := by
  intro n
  induction n with
  | zero =>
    intro deck pos wins ties
    exact le_refl _
  | succ n ih =>
    intro deck pos wins ties
    simp only [simLoop]
    split_ifs
    · exact le_trans (ih _ _ _ _) (by omega)
    · exact le_trans (ih _ _ _ _) (by omega)
    · exact le_trans (ih _ _ _ _) (by omega)

theorem runSimulations_simulations (hole board : List Card) (numOpp sims : Nat)
    (rng : Nat → Nat) :
    (runSimulations hole board numOpp sims rng).simulations = sims := rfl

theorem runSimulations_wins_ties_le (hole board : List Card) (numOpp sims : Nat)
    (rng : Nat → Nat) :
    (runSimulations hole board numOpp sims rng).wins +
      (runSimulations hole board numOpp sims rng).ties ≤ sims := by
  have h := simLoop_wins_ties_le hole board numOpp rng sims
    (RemoveCards NewDeck (hole ++ board)) 0 0 0
  simp only [runSimulations]
  omega

/-- The trial counts reported by the workers sum to the full trial count. -/
theorem workerResults_sum_simulations (hole board : List Card) (numOpp : Nat)
    (s w : Nat) (rngs : Nat → Nat → Nat) (hw : 1 ≤ w) :
    ((workerResults hole board numOpp s w rngs).map (fun r => r.simulations)).sum = s := by
  unfold workerResults
  rw [List.map_map]
  have hcomp : ((fun r : workerResult => r.simulations) ∘ fun i =>
      runSimulations hole board numOpp (simsForWorker s w i) (rngs i)) =
      simsForWorker s w := by
    funext i
    rfl
  rw [hcomp, sum_simsForWorker s w hw]

/-- Summing the per-worker bounds: aggregate wins + ties never exceed the trials. -/
theorem sum_wins_ties_le (results : List workerResult)
    (h : ∀ r ∈ results, r.wins + r.ties ≤ r.simulations) :
    (results.map (fun r => r.wins)).sum + (results.map (fun r => r.ties)).sum ≤
      (results.map (fun r => r.simulations)).sum := by
  induction results with
  | nil => simp
  | cons r rs ih =>
    simp only [List.map_cons, List.sum_cons]
    have h1 := h r (List.mem_cons_self _ _)
    have h2 := ih (fun x hx => h x (List.mem_cons_of_mem _ hx))
    omega

/-- C2: `CalculateOdds` partitions `trials` over `workers` with base share
`trials / workers`, giving one extra trial to each of the first `trials % workers`
workers, and the shares sum to `trials` exactly, for any `workers` in [1, trials]. -/
theorem C2_partition (trials workers : Nat) (h1 : 1 ≤ workers) (h2 : workers ≤ trials) :
    (∀ i, i < trials % workers →
      simsForWorker trials workers i = trials / workers + 1) ∧
    (∀ i, trials % workers ≤ i →
      simsForWorker trials workers i = trials / workers) ∧
    ((List.range workers).map (simsForWorker trials workers)).sum = trials := by
  refine ⟨?_, ?_, sum_simsForWorker trials workers h1⟩
  · intro i hi
    unfold simsForWorker
    rw [if_pos hi]
  · intro i hi
    unfold simsForWorker
    rw [if_neg (by omega)]
    exact Nat.add_zero _

/-- Witness for C2 at trials = 10, workers = 3 (shares 4, 3, 3). -/
theorem C2_witness :
    simsForWorker 10 3 0 = 10 / 3 + 1 ∧ simsForWorker 10 3 2 = 10 / 3 ∧
    ((List.range 3).map (simsForWorker 10 3)).sum = 10 :=
  ⟨(C2_partition 10 3 (by decide) (by decide)).1 0 (by decide),
   (C2_partition 10 3 (by decide) (by decide)).2.1 2 (by decide),
   (C2_partition 10 3 (by decide) (by decide)).2.2⟩

theorem defaultWorkers_pos (workers : Int) : 1 ≤ defaultWorkers workers := by
  unfold defaultWorkers
  split_ifs <;> omega

theorem defaultSimulations_pos (simulations : Int) : 1 ≤ defaultSimulations simulations := by
  unfold defaultSimulations
  split_ifs <;> omega

/-- Aggregate wins and ties of `CalculateOdds`' workers stay within the defaulted
trial count. -/
theorem workerResults_wins_ties_le (hole board : List Card) (numOpp : Nat)
    (s w : Nat) (rngs : Nat → Nat → Nat) (hw : 1 ≤ w) :
    ((workerResults hole board numOpp s w rngs).map (fun r => r.wins)).sum +
      ((workerResults hole board numOpp s w rngs).map (fun r => r.ties)).sum ≤ s := by
  have hbound : ∀ r ∈ workerResults hole board numOpp s w rngs,
      r.wins + r.ties ≤ r.simulations := by
    intro r hr
    unfold workerResults at hr
    obtain ⟨i, _, rfl⟩ := List.mem_map.mp hr
    rw [runSimulations_simulations]
    exact runSimulations_wins_ties_le hole board numOpp _ _
  calc ((workerResults hole board numOpp s w rngs).map (fun r => r.wins)).sum +
      ((workerResults hole board numOpp s w rngs).map (fun r => r.ties)).sum ≤
      ((workerResults hole board numOpp s w rngs).map (fun r => r.simulations)).sum :=
        sum_wins_ties_le _ hbound
    _ = s := workerResults_sum_simulations hole board numOpp s w rngs hw

/-- C3: the odds returned by `CalculateOdds` are `wins/total`, `ties/total` and
`(total - wins - ties)/total` with `total` the requested trial count after
defaulting and `wins + ties ≤ total`; hence each probability lies in [0, 1] and the
three sum to exactly 1 (so certainly to 1 within 1e-9). -/
theorem C3_probabilities (hole board : List Card) (numOpp : Nat)
    (simulations workers : Int) (rngs : Nat → Nat → Nat) :
    ∃ wins ties : Nat,
      wins + ties ≤ defaultSimulations simulations ∧
      (CalculateOdds hole board numOpp simulations workers rngs).Win =
        (wins : ℚ) / (defaultSimulations simulations : ℚ) ∧
      (CalculateOdds hole board numOpp simulations workers rngs).Tie =
        (ties : ℚ) / (defaultSimulations simulations : ℚ) ∧
      (CalculateOdds hole board numOpp simulations workers rngs).Loss =
        ((defaultSimulations simulations : ℚ) - (wins : ℚ) - (ties : ℚ)) /
          (defaultSimulations simulations : ℚ) ∧
      0 ≤ (CalculateOdds hole board numOpp simulations workers rngs).Win ∧
      (CalculateOdds hole board numOpp simulations workers rngs).Win ≤ 1 ∧
      0 ≤ (CalculateOdds hole board numOpp simulations workers rngs).Tie ∧
      (CalculateOdds hole board numOpp simulations workers rngs).Tie ≤ 1 ∧
      0 ≤ (CalculateOdds hole board numOpp simulations workers rngs).Loss ∧
      (CalculateOdds hole board numOpp simulations workers rngs).Loss ≤ 1 ∧
      (CalculateOdds hole board numOpp simulations workers rngs).Win +
        (CalculateOdds hole board numOpp simulations workers rngs).Tie +
        (CalculateOdds hole board numOpp simulations workers rngs).Loss = 1 ∧
      |(CalculateOdds hole board numOpp simulations workers rngs).Win +
        (CalculateOdds hole board numOpp simulations workers rngs).Tie +
        (CalculateOdds hole board numOpp simulations workers rngs).Loss - 1| ≤
        1 / 1000000000 := by
  have hw := defaultWorkers_pos workers
  have hs1 := defaultSimulations_pos simulations
  have hsims := workerResults_sum_simulations hole board numOpp
    (defaultSimulations simulations) (defaultWorkers workers) rngs hw
  have hle := workerResults_wins_ties_le hole board numOpp
    (defaultSimulations simulations) (defaultWorkers workers) rngs hw
  have hWin : (CalculateOdds hole board numOpp simulations workers rngs).Win =
      (Nat.cast (((workerResults hole board numOpp (defaultSimulations simulations)
        (defaultWorkers workers) rngs).map (fun r => r.wins)).sum) : ℚ) /
      (Nat.cast (((workerResults hole board numOpp (defaultSimulations simulations)
        (defaultWorkers workers) rngs).map (fun r => r.simulations)).sum) : ℚ) := by
    simp only [CalculateOdds]
  have hTie : (CalculateOdds hole board numOpp simulations workers rngs).Tie =
      (Nat.cast (((workerResults hole board numOpp (defaultSimulations simulations)
        (defaultWorkers workers) rngs).map (fun r => r.ties)).sum) : ℚ) /
      (Nat.cast (((workerResults hole board numOpp (defaultSimulations simulations)
        (defaultWorkers workers) rngs).map (fun r => r.simulations)).sum) : ℚ) := by
    simp only [CalculateOdds]
  have hLoss : (CalculateOdds hole board numOpp simulations workers rngs).Loss =
      (Int.cast ((Nat.cast (((workerResults hole board numOpp (defaultSimulations simulations)
          (defaultWorkers workers) rngs).map (fun r => r.simulations)).sum) : Int) -
        (Nat.cast (((workerResults hole board numOpp (defaultSimulations simulations)
          (defaultWorkers workers) rngs).map (fun r => r.wins)).sum) : Int) -
        (Nat.cast (((workerResults hole board numOpp (defaultSimulations simulations)
          (defaultWorkers workers) rngs).map (fun r => r.ties)).sum) : Int)) : ℚ) /
      (Nat.cast (((workerResults hole board numOpp (defaultSimulations simulations)
        (defaultWorkers workers) rngs).map (fun r => r.simulations)).sum) : ℚ) := by
    simp only [CalculateOdds]
  rw [hsims] at hWin hTie hLoss
  refine ⟨((workerResults hole board numOpp (defaultSimulations simulations)
      (defaultWorkers workers) rngs).map (fun r => r.wins)).sum,
    ((workerResults hole board numOpp (defaultSimulations simulations)
      (defaultWorkers workers) rngs).map (fun r => r.ties)).sum, hle, hWin, hTie, ?_⟩
  have hsQn : 0 < defaultSimulations simulations := by omega
  have hsQ : (0 : ℚ) < (defaultSimulations simulations : ℚ) := by exact_mod_cast hsQn
  have hLoss2 : (CalculateOdds hole board numOpp simulations workers rngs).Loss =
      ((defaultSimulations simulations : ℚ) -
        (Nat.cast (((workerResults hole board numOpp (defaultSimulations simulations)
          (defaultWorkers workers) rngs).map (fun r => r.wins)).sum) : ℚ) -
        (Nat.cast (((workerResults hole board numOpp (defaultSimulations simulations)
          (defaultWorkers workers) rngs).map (fun r => r.ties)).sum) : ℚ)) /
      (defaultSimulations simulations : ℚ) := by
    rw [hLoss, Int.cast_sub, Int.cast_sub, Int.cast_natCast, Int.cast_natCast,
      Int.cast_natCast]
  have hWle : (Nat.cast (((workerResults hole board numOpp (defaultSimulations simulations)
      (defaultWorkers workers) rngs).map (fun r => r.wins)).sum) : ℚ) +
      (Nat.cast (((workerResults hole board numOpp (defaultSimulations simulations)
      (defaultWorkers workers) rngs).map (fun r => r.ties)).sum) : ℚ) ≤
      (defaultSimulations simulations : ℚ) := by
    exact_mod_cast hle
  have hsum1 : (CalculateOdds hole board numOpp simulations workers rngs).Win +
      (CalculateOdds hole board numOpp simulations workers rngs).Tie +
      (CalculateOdds hole board numOpp simulations workers rngs).Loss = 1 := by
    rw [hWin, hTie, hLoss2, div_add_div_same, div_add_div_same]
    rw [show (Nat.cast (((workerResults hole board numOpp (defaultSimulations simulations)
        (defaultWorkers workers) rngs).map (fun r => r.wins)).sum) : ℚ) +
        (Nat.cast (((workerResults hole board numOpp (defaultSimulations simulations)
        (defaultWorkers workers) rngs).map (fun r => r.ties)).sum) : ℚ) +
        ((defaultSimulations simulations : ℚ) -
        (Nat.cast (((workerResults hole board numOpp (defaultSimulations simulations)
          (defaultWorkers workers) rngs).map (fun r => r.wins)).sum) : ℚ) -
        (Nat.cast (((workerResults hole board numOpp (defaultSimulations simulations)
          (defaultWorkers workers) rngs).map (fun r => r.ties)).sum) : ℚ)) =
        (defaultSimulations simulations : ℚ) from by ring]
    exact div_self (ne_of_gt hsQ)
  refine ⟨hLoss2, ?_, ?_, ?_, ?_, ?_, ?_, hsum1, ?_⟩
  · rw [hWin]
    positivity
  · rw [hWin]
    rw [div_le_one hsQ]
    have : (0 : ℚ) ≤ (Nat.cast (((workerResults hole board numOpp (defaultSimulations simulations)
        (defaultWorkers workers) rngs).map (fun r => r.ties)).sum) : ℚ) := by positivity
    linarith
  · rw [hTie]
    positivity
  · rw [hTie]
    rw [div_le_one hsQ]
    have : (0 : ℚ) ≤ (Nat.cast (((workerResults hole board numOpp (defaultSimulations simulations)
        (defaultWorkers workers) rngs).map (fun r => r.wins)).sum) : ℚ) := by positivity
    linarith
  · rw [hLoss2]
    apply div_nonneg _ hsQ.le
    linarith
  · rw [hLoss2]
    rw [div_le_one hsQ]
    have h1 : (0 : ℚ) ≤ (Nat.cast (((workerResults hole board numOpp (defaultSimulations simulations)
        (defaultWorkers workers) rngs).map (fun r => r.wins)).sum) : ℚ) := by positivity
    have h2 : (0 : ℚ) ≤ (Nat.cast (((workerResults hole board numOpp (defaultSimulations simulations)
        (defaultWorkers workers) rngs).map (fun r => r.ties)).sum) : ℚ) := by positivity
    linarith
  · rw [hsum1]
    norm_num

/-- C10: after defaulting, the aggregated trial total equals the (≥ 1) defaulted
simulation count, so the probability divisions in `CalculateOdds` never divide by
zero — including when the workers outnumber the simulations, in which case every
surplus worker is assigned zero trials. -/
theorem C10_total_positive (hole board : List Card) (numOpp : Nat)
    (simulations workers : Int) (rngs : Nat → Nat → Nat) (i : Nat) :
    1 ≤ defaultSimulations simulations ∧
    1 ≤ defaultWorkers workers ∧
    ((workerResults hole board numOpp (defaultSimulations simulations)
      (defaultWorkers workers) rngs).map (fun r => r.simulations)).sum =
      defaultSimulations simulations ∧
    ((defaultSimulations simulations : ℚ)) ≠ 0 ∧
    (defaultSimulations simulations < defaultWorkers workers →
      defaultSimulations simulations ≤ i →
      simsForWorker (defaultSimulations simulations) (defaultWorkers workers) i = 0) := by
  have hs1 := defaultSimulations_pos simulations
  have hw1 := defaultWorkers_pos workers
  refine ⟨hs1, hw1,
    workerResults_sum_simulations hole board numOpp _ _ rngs hw1, ?_, ?_⟩
  · have : 0 < defaultSimulations simulations := by omega
    exact_mod_cast Nat.pos_iff_ne_zero.mp this
  · intro hlt hi
    unfold simsForWorker
    rw [Nat.div_eq_of_lt hlt, Nat.mod_eq_of_lt hlt, if_neg (by omega)]

/-- Witness for C10: 3 requested simulations over 10 workers; worker 5 runs zero
trials and the total still divides safely. -/
theorem C10_witness :
    1 ≤ defaultSimulations 3 ∧ ((defaultSimulations 3 : ℚ)) ≠ 0 ∧
    simsForWorker (defaultSimulations 3) (defaultWorkers 10) 5 = 0 := by
  have h := C10_total_positive [] [] 1 3 10 (fun _ _ => 0) 5
  exact ⟨h.1, h.2.2.2.1, h.2.2.2.2 (by decide) (by decide)⟩

/-- C4 (refuting independence of worker seeding): the seed `runSimulations` feeds
to its generator is the wall-clock reading alone; the worker's identity does not
enter, so two workers that read the same `UnixNano` tick obtain the same seed, and
any deterministic generator model therefore produces identical streams for them.
The first conjunct evaluates the seeding at a concrete colliding tick. -/
theorem C4_seed_wallclock_only :
    workerSeed 0 1700000000000000000 = workerSeed 1 1700000000000000000 ∧
    (∀ (prng : Int → Nat → Nat) (i j : Nat) (t : Int),
      prng (workerSeed i t) = prng (workerSeed j t)) :=
  ⟨rfl, fun _ _ _ _ => rfl⟩

/-- Frame model of `evaluateFiveCardHand` (`evaluator.go` lines 29-40).  The only
writes the Go function performs are the fresh allocation `sortedCards := make(...)`,
the copy `copy(sortedCards, cards)` into that fresh buffer, and the in-place
sorting swaps `sortedCards[i], sortedCards[j] = ...`, again only on the fresh
buffer; every other statement reads.  The model threads the caller-visible contents
of the `cards` slice alongside the scratch buffer through these steps and returns
them with the result: no step writes through `cards`. -/
def evaluateFiveCardHandFrame (cards : List Card) : HandResult × List Card :=
  let callerSlice := cards
  let scratch := callerSlice
  let scratch := sortCardsDesc scratch
  (handFromSorted scratch, callerSlice)

/-- Frame model of `EvaluateHand` (`evaluator.go` lines 5-26): the function itself
only reads `cards`; `generateCombinations` copies each combination into a fresh
slice (`comb := make(...); copy(comb, combo)`) before it is evaluated, and
`evaluateFiveCardHand` sorts a private copy, so no callee writes through the
caller's slice either.  The returned list is the caller's slice after the call. -/
def EvaluateHandFrame (cards : List Card) : Option HandResult × List Card :=
  if cards.length < 1 then (none, cards)
  else if cards.length < 5 then
    let r := evaluateFiveCardHandFrame cards
    (some r.1, r.2)
  else ((generateCombinations cards 5).foldl bestHandStep none, cards)

/-- C9: evaluation never modifies the caller's cards — after the call the caller's
slice holds the same cards in the same order, and the result agrees with the pure
evaluation functions. -/
theorem C9_no_input_mutation (cards : List Card) :
    (evaluateFiveCardHandFrame cards).2 = cards ∧
    (evaluateFiveCardHandFrame cards).1 = evaluateFiveCardHand cards ∧
    (EvaluateHandFrame cards).2 = cards ∧
    (EvaluateHandFrame cards).1 = EvaluateHand cards := by
  refine ⟨rfl, rfl, ?_, ?_⟩
  · unfold EvaluateHandFrame
    split_ifs <;> rfl
  · unfold EvaluateHandFrame EvaluateHand
    split_ifs <;> rfl
